import Mathlib

/-!
Verification of the rendering/ordering core of the `codegen` crate
(programmatic Rust source-code builder).

The data model and operations below are shallow embeddings of the Rust
source files (`src/type.rs`, `src/fields.rs`, `src/field.rs`, `src/docs.rs`,
`src/import.rs`, `src/impl.rs`, `src/struct.rs`, `src/enum.rs`,
`src/variant.rs`, `src/type_alias.rs`, `src/type_def.rs`, `src/scope.rs`).
Rendered text is modelled as `List Char`; panics (`panic!`, `assert!`,
`unwrap` on `None`) are modelled with `Option`.

The crate files `formatter.rs`, `module.rs`, `function.rs`, `trait.rs`,
`item.rs` and `bound.rs` are not part of the sources; the definitions that
stand in for them are marked `Modelled from the spec:` and follow the
specification's description (§4.1 indented writer, §4.3 declaration
builders).
-/

namespace Codegen

/-- Modelled from the spec: `formatter.rs` is not among the sources.  §4.1
describes the indented writer: a text sink tracking a current indentation
depth; every line written inside a block is prefixed with one fixed
indentation unit per level, and `block` increments the level around a body
and decrements it afterwards.  `atLineStart` records whether the next
character begins a fresh line. -/
structure Fmt where
  out : List Char
  indentLevel : Nat
  atLineStart : Bool
deriving Repr

/-- One fixed indentation unit (an implementation constant, §4.1). -/
def indentUnit : List Char := [' ', ' ', ' ', ' ']

/-- Modelled from the spec: writing a single character through the indented
writer.  At the start of a line a non-newline character is preceded by the
current indentation. -/
def Fmt.writeChar (f : Fmt) (c : Char) : Fmt :=
  if c = '\n' then
    { f with out := f.out ++ [c], atLineStart := true }
  else if f.atLineStart then
    { f with out := f.out ++ (List.replicate f.indentLevel indentUnit).flatten ++ [c],
             atLineStart := false }
  else
    { f with out := f.out ++ [c] }

/-- Modelled from the spec: `write` appends text to the sink, indenting at
line starts (§4.1). -/
def Fmt.write (f : Fmt) (s : List Char) : Fmt :=
  s.foldl Fmt.writeChar f

/-- Modelled from the spec: `block` increments the indent level, runs the
body, and decrements the level afterwards (§4.1). -/
def Fmt.block (f : Fmt) (body : Fmt → Fmt) : Fmt :=
  let f1 := body { f with indentLevel := f.indentLevel + 1 }
  { f1 with indentLevel := f.indentLevel }

/-- The formatter handed to `Scope::to_string`: empty sink, depth 0. -/
def Fmt.init : Fmt := { out := [], indentLevel := 0, atLineStart := true }

/-- `Type` from `src/type.rs`: a name plus structural generic arguments.
(Named `Ty` because `Type` is reserved in Lean.) -/
inductive Ty where
  | mk (name : String) (generics : List Ty)

/-- `Type::name`. -/
def Ty.name : Ty → String
  | .mk n _ => n

/-- `Type::generics`. -/
def Ty.generics : Ty → List Ty
  | .mk _ g => g

/-- The longest prefix of a character list strictly before the first
occurrence of the two-character separator `::`.  Used for
`ty.split("::").next()` in `Scope::new_import` and (on the reversed list)
for `rfind("::")` in `Type::key_for_sorting`. -/
def uptoDoubleColon : List Char → List Char
  | [] => []
  | ':' :: ':' :: _ => []
  | c :: rest => c :: uptoDoubleColon rest

/-- `Type::key_for_sorting` from `src/type.rs`: the substring after the last
occurrence of `::`, or the whole name if there is none.  The suffix after
the last `::` is the reversal of the part of the reversed name before the
first (reversed) `::`. -/
def Ty.key_for_sorting (t : Ty) : String :=
  ⟨(uptoDoubleColon t.name.data.reverse).reverse⟩

/-- `impl<S: ToString> From<S> for Type` from `src/type.rs`: wraps a string
as a type with no generics, without any re-parsing. -/
def Ty.fromString (s : String) : Ty := .mk s []

/-- `Type::generic` from `src/type.rs`: pushes a generic argument.  The
source asserts that the name does not already textually include a generic
list; the assertion failure is modelled as `none`. -/
def Ty.generic (t : Ty) (g : Ty) : Option Ty :=
  if t.name.data.any (fun c => c = '<') then none
  else some (.mk t.name (t.generics ++ [g]))

/-- The leftmost match of the regex `([^<]*)<(.*)>` from
`split_name_and_generic` in `src/type.rs`, as the regex crate computes it.
`[^<]` matches any character except `<` (newlines included), while `.`
matches any character except a newline.  At a candidate start position,
group 1 can only be the run of non-`<` characters up to the next `<`;
group 2 then greedily extends from after that `<` up to (but never across)
the next newline, and backtracks to the last `>` in that stretch.  If no
`>` stands between the `<` and the following newline, no match starts at or
before this `<`, and the engine resumes just after it — so the accumulated
group-1 text resets.  If no `<` qualifies, there is no match at all.

`regexScan acc s` walks the input with `acc` holding the (reversed)
group-1 characters seen since the last reset. -/
def regexScan : List Char → List Char → Option (List Char × List Char)
  | _, [] => none
  | acc, c :: rest =>
    if c = '<' then
      match (rest.takeWhile (fun c => ¬ (c = '\n'))).reverse.dropWhile
          (fun c => ¬ (c = '>')) with
      | _ :: revGeneric => some (acc.reverse, revGeneric.reverse)
      | [] => regexScan [] rest
    else regexScan (c :: acc) rest

/-- `split_name_and_generic` from `src/type.rs`.  The source matches the
regex `([^<]*)<(.*)>` on the input (leftmost match, `.` not crossing a
newline — see `regexScan`); a failure to match panics with
"Malformed type", modelled as `none`.  On a match the source builds
`Type::new(group1)` — plain, as group 1 never contains `<` — and registers
the whole of group 2 as a single generic argument via `Type::generic` and
the string-to-`Type` conversion. -/
def split_name_and_generic (s : String) : Option Ty :=
  match regexScan [] s.data with
  | none => none
  | some (typeName, generic) =>
    Ty.generic (.mk ⟨typeName⟩ []) (Ty.fromString ⟨generic⟩)

/-- `Type::new` from `src/type.rs`: a name containing `<` is split once by
`split_name_and_generic`; otherwise the type is the plain name. -/
def Ty.new (s : String) : Option Ty :=
  if s.data.any (fun c => c = '<') then split_name_and_generic s
  else some (.mk s [])

/-- Pure rendering of a type: the name, then `<`, the generics separated by
`, `, and `>` when the generic list is non-empty (`Type::fmt` /
`Type::fmt_slice` from `src/type.rs`; the formatter's `write` calls
concatenate, so the emitted text is assembled directly). -/
def Ty.render : Ty → List Char
  | .mk n [] => n.data
  | .mk n (g :: gs) =>
      n.data ++ ['<'] ++ Ty.render g ++
        (gs.attach.map (fun x => (", ").data ++ Ty.render x.1)).flatten ++ ['>']
decreasing_by
  · simp; omega
  · have := List.sizeOf_lt_of_mem x.2
    simp; omega

/-- `Type::fmt`: the rendered text written through the formatter. -/
def Ty.fmt (t : Ty) (f : Fmt) : Fmt := f.write t.render

/-- `Field` from `src/field.rs`: a struct field / associated item. -/
structure Field where
  name : String
  ty : Ty
  documentation : String
  annotation : List String
  value : String
  visibility : Option String

/-- `Bound` from `src/bound.rs`.  Modelled from the spec: `bound.rs` is not
among the sources; `Impl::bound` and `TypeDef::bound` (which are) construct
it with a name and a one-element list of bound types, so it is a name plus
a list of types. -/
structure Bound where
  name : String
  bound : List Ty

/-- `Docs` from `src/docs.rs`. -/
structure Docs where
  docs : String

/-- The lines of a character list in the sense of Rust's `str::lines`:
split on `'\n'`, without a trailing empty line for a trailing newline.
(`\r\n` handling is omitted; the generated text never contains `'\r'`.) -/
def linesAux : List Char → List (List Char)
  | [] => [[]]
  | c :: rest =>
    if c = '\n' then [] :: linesAux rest
    else match linesAux rest with
      | [] => [[c]]
      | h :: t => (c :: h) :: t

/-- Rust `str::lines` on a character list. -/
def rustLines (l : List Char) : List (List Char) :=
  if l.getLast? = some '\n' then (linesAux l).dropLast
  else if l = [] then [] else linesAux l

/-- `Docs::fmt` from `src/docs.rs`: each line of the documentation prefixed
with `///` and, when the line is non-empty, a single space. -/
def Docs.fmt (d : Docs) (f : Fmt) : Fmt :=
  (rustLines d.docs.data).foldl
    (fun f line =>
      if line = [] then f.write ("///\n").data
      else f.write (("///" ++ " ").data ++ line ++ ['\n'])) f

/-- `Fields` from `src/fields.rs`: a field list is empty, tuple-style, or
named-style. -/
inductive Fields where
  | Empty
  | Tuple (fields : List (Option String × Ty))
  | Named (fields : List Field)

/-- `Fields::push_named` from `src/fields.rs`: pushing a named field onto an
empty list starts named mode; onto a named list it appends; onto a tuple
list it panics (`panic!("field list is named")`), modelled as `none`
without producing any modified value. -/
def Fields.push_named (fs : Fields) (field : Field) : Option Fields :=
  match fs with
  | .Empty => some (.Named [field])
  | .Named fields => some (.Named (fields ++ [field]))
  | .Tuple _ => none

/-- `Fields::named` from `src/fields.rs`: `push_named` with a fresh field
carrying only a name and a type. -/
def Fields.named (fs : Fields) (name : String) (ty : Ty) : Option Fields :=
  fs.push_named { name := name, ty := ty, documentation := "",
                  annotation := [], value := "", visibility := none }

/-- `Fields::tuple` from `src/fields.rs`: pushing a tuple field onto an
empty list starts tuple mode; onto a tuple list it appends; onto a named
list it panics (`panic!("field list is tuple")`), modelled as `none`. -/
def Fields.tuple (fs : Fields) (vis : Option String) (ty : Ty) : Option Fields :=
  match fs with
  | .Empty => some (.Tuple [(vis, ty)])
  | .Tuple fields => some (.Tuple (fields ++ [(vis, ty)]))
  | .Named _ => none

/-- `Fields::fmt` from `src/fields.rs`: named fields render inside an
indented block, one `name: ty,` line each preceded by doc and annotation
lines and an optional visibility; tuple fields render as a parenthesised,
comma-separated list.  (The source asserts the field vectors are non-empty;
field lists built through the API always are, and the assertion is not
modelled.) -/
def Fields.fmt (fs : Fields) (f : Fmt) : Fmt :=
  match fs with
  | .Named fields =>
    f.block (fun f =>
      fields.foldl (fun f fld =>
        let f := (rustLines fld.documentation.data).foldl
          (fun f doc => f.write (("/// ").data ++ doc ++ ['\n'])) f
        let f := fld.annotation.foldl (fun f ann => f.write (ann.data ++ ['\n'])) f
        let f := match fld.visibility with
          | some vis => f.write (vis ++ " ").data
          | none => f
        let f := f.write (fld.name ++ ": ").data
        let f := fld.ty.fmt f
        f.write (",\n").data) f)
  | .Tuple tys =>
    let f := f.write ("(").data
    let f := (match tys with
      | [] => f
      | t0 :: rest =>
        let f := (match t0.1 with
          | some vis => f.write (vis ++ " ").data
          | none => f)
        let f := t0.2.fmt f
        rest.foldl (fun f (t : Option String × Ty) =>
          let f := f.write (", ").data
          let f := (match t.1 with
            | some vis => f.write (vis ++ " ").data
            | none => f)
          t.2.fmt f) f)
    f.write (")").data
  | .Empty => f

/-- `Import` from `src/import.rs`. -/
structure Import where
  line : String
  vis : Option String
  alias' : Option String

/-- `Import::new` from `src/import.rs`: the stored line is `path::ty`,
extended with ` as alias` when an alias is given; visibility starts out
unset. -/
def Import.new (path ty : String) (al : Option String) : Import :=
  let base_line := path ++ "::" ++ ty
  { line := match al with
      | none => base_line
      | some a => base_line ++ " as " ++ a,
    vis := none,
    alias' := al }

/-- Modelled from the spec: `fmt_generics` lives in the missing
`formatter.rs`; a non-empty generic-parameter list renders as `<g1, g2>`
after the keyword (§6 keyword ordering: name then generics). -/
def fmt_generics (generics : List String) (f : Fmt) : Fmt :=
  match generics with
  | [] => f
  | g :: gs =>
    let f := f.write ("<" ++ g).data
    let f := gs.foldl (fun f g => f.write (", " ++ g).data) f
    f.write (">").data

/-- Modelled from the spec: `fmt_bounds` lives in the missing
`formatter.rs`; a non-empty bound list renders as a `where`-style clause,
one `name: ty + ty` line per bound (§4.3). -/
def fmt_bounds (bounds : List Bound) (f : Fmt) : Fmt :=
  match bounds with
  | [] => f
  | _ =>
    let f := f.write ("\nwhere").data
    bounds.foldl (fun f b =>
      let f := f.write (("\n").data ++ b.name.data ++ (": ").data)
      let f := (match b.bound with
        | [] => f
        | t :: ts =>
          let f := t.fmt f
          ts.foldl (fun f (t : Ty) => t.fmt (f.write (" + ").data)) f)
      f.write (",").data) f

/-- `TypeDef` from `src/type_def.rs`: the shared head data of struct, enum,
trait and type-alias declarations. -/
structure TypeDef where
  ty : Ty
  vis : Option String
  docs : Option Docs
  derive : List String
  allow : List String
  attributes : List String
  repr : Option String
  bounds : List Bound
  macros : List String
  cfg_attrs : List String

/-- `TypeDef::new` on a name that contains no generic delimiter, for which
`Type::new` yields the plain type. -/
def TypeDef.ofTy (t : Ty) : TypeDef :=
  { ty := t, vis := none, docs := none, derive := [], allow := [],
    attributes := [], repr := none, bounds := [], macros := [], cfg_attrs := [] }

/-- `TypeDef::fmt_allow`: one `#[allow(..)]` line per entry. -/
def TypeDef.fmt_allow (td : TypeDef) (f : Fmt) : Fmt :=
  td.allow.foldl (fun f a => f.write ("#[allow(" ++ a ++ ")]\n").data) f

/-- `TypeDef::fmt_derive`: a single `#[derive(a, b)]` line when non-empty. -/
def TypeDef.fmt_derive (td : TypeDef) (f : Fmt) : Fmt :=
  match td.derive with
  | [] => f
  | d :: ds =>
    let f := f.write ("#[derive(" ++ d).data
    let f := ds.foldl (fun f d => f.write (", " ++ d).data) f
    f.write (")]\n").data

/-- `TypeDef::fmt_repr`: a `#[repr(..)]` line when set. -/
def TypeDef.fmt_repr (td : TypeDef) (f : Fmt) : Fmt :=
  match td.repr with
  | some r => f.write ("#[repr(" ++ r ++ ")]\n").data
  | none => f

/-- `TypeDef::fmt_attributes`: one `#[..]` line per attribute. -/
def TypeDef.fmt_attributes (td : TypeDef) (f : Fmt) : Fmt :=
  td.attributes.foldl (fun f a => f.write ("#[" ++ a ++ "]\n").data) f

/-- `TypeDef::fmt_macros`: one line per macro string. -/
def TypeDef.fmt_macros (td : TypeDef) (f : Fmt) : Fmt :=
  td.macros.foldl (fun f m => f.write (m ++ "\n").data) f

/-- `TypeDef::fmt_cfg_attrs`: one `#[cfg_attr(..)]` line per entry. -/
def TypeDef.fmt_cfg_attrs (td : TypeDef) (f : Fmt) : Fmt :=
  td.cfg_attrs.foldl (fun f a => f.write ("#[cfg_attr(" ++ a ++ ")]\n").data) f

/-- `TypeDef::fmt_head` from `src/type_def.rs`: docs, then the attribute
groups, the optional visibility, the keyword, the type with its generics,
the parent list, and the bounds. -/
def TypeDef.fmt_head (td : TypeDef) (keyword : String) (parents : List Ty)
    (f : Fmt) : Fmt :=
  let f := match td.docs with
    | some d => d.fmt f
    | none => f
  let f := td.fmt_allow f
  let f := td.fmt_derive f
  let f := td.fmt_repr f
  let f := td.fmt_attributes f
  let f := td.fmt_macros f
  let f := td.fmt_cfg_attrs f
  let f := match td.vis with
    | some vis => f.write (vis ++ " ").data
    | none => f
  let f := f.write (keyword ++ " ").data
  let f := td.ty.fmt f
  let f := (match parents with
    | [] => f
    | p :: ps =>
      let f := p.fmt (f.write (": ").data)
      ps.foldl (fun f (p : Ty) => p.fmt (f.write (" + ").data)) f)
  fmt_bounds td.bounds f

/-- `Struct` from `src/struct.rs`. -/
structure Struct where
  type_def : TypeDef
  fields : Fields

/-- `Struct::new` on a name without the generic delimiter. -/
def Struct.ofTy (t : Ty) : Struct :=
  { type_def := TypeDef.ofTy t, fields := .Empty }

/-- `Struct::ty`. -/
def Struct.ty (s : Struct) : Ty := s.type_def.ty

/-- `Struct::fmt` from `src/struct.rs`: the `struct` head, the fields, and a
trailing `;` when the field list is empty or tuple-style. -/
def Struct.fmt (s : Struct) (f : Fmt) : Fmt :=
  let f := s.type_def.fmt_head "struct" [] f
  let f := s.fields.fmt f
  match s.fields with
  | .Empty => f.write (";\n").data
  | .Tuple _ => f.write (";\n").data
  | .Named _ => f

/-- `Variant` from `src/variant.rs`. -/
structure Variant where
  name : String
  fields : Fields
  annotations : List String

/-- `Variant::fmt` from `src/variant.rs`: annotation lines, the name, the
fields, and a trailing `,`. -/
def Variant.fmt (v : Variant) (f : Fmt) : Fmt :=
  let f := v.annotations.foldl (fun f a => f.write (a.data ++ ['\n'])) f
  let f := f.write v.name.data
  let f := v.fields.fmt f
  f.write (",\n").data

/-- `Enum` from `src/enum.rs`. -/
structure Enum where
  type_def : TypeDef
  variants : List Variant

/-- `Enum::ty`. -/
def Enum.ty (e : Enum) : Ty := e.type_def.ty

/-- `Enum::fmt` from `src/enum.rs`: the `enum` head, then the variants
inside an indented block. -/
def Enum.fmt (e : Enum) (f : Fmt) : Fmt :=
  let f := e.type_def.fmt_head "enum" [] f
  f.block (fun f => e.variants.foldl (fun f v => v.fmt f) f)

/-- `TypeAlias` from `src/type_alias.rs`. -/
structure TypeAlias where
  type_def : TypeDef
  ty : Ty

/-- `TypeAlias::new` on names without the generic delimiter. -/
def TypeAlias.ofTy (name target : Ty) : TypeAlias :=
  { type_def := TypeDef.ofTy name, ty := target }

/-- `TypeAlias::type_def` (the aliased name's type, used as sort key). -/
def TypeAlias.type_def_ty (a : TypeAlias) : Ty := a.type_def.ty

/-- `TypeAlias::fmt` from `src/type_alias.rs`: `type` head, ` = `, the
target type, `;`. -/
def TypeAlias.fmt (a : TypeAlias) (f : Fmt) : Fmt :=
  let f := a.type_def.fmt_head "type" [] f
  let f := f.write (" = ").data
  let f := a.ty.fmt f
  f.write (";").data

/-- Modelled from the spec: `function.rs` is not among the sources.  §4.3
treats a function as a rendering leaf (name, signature pieces, body text)
whose internal formatting is out of core scope; only its name takes part in
the container ordering, so its rendered form is abstracted as pre-rendered
text. -/
structure Function where
  name : String
  body : List Char

/-- Modelled from the spec: the function's rendered text, emitted through
the writer; the boolean distinguishes trait-item rendering
(`Function::fmt(false, fmt)` at scope level). -/
def Function.fmt (fn : Function) (_insideTrait : Bool) (f : Fmt) : Fmt :=
  f.write fn.body

/-- Modelled from the spec: `trait.rs` is not among the sources.  A trait
declaration owns a type (whose sorting key orders it in the container) and
its associated items; the rendered form is abstracted as pre-rendered
text. -/
structure Trait where
  ty : Ty
  body : List Char

/-- Modelled from the spec: the trait's rendered text. -/
def Trait.fmt (t : Trait) (f : Fmt) : Fmt := f.write t.body

/-- Modelled from the spec: `module.rs` is not among the sources.  §4.3: a
module owns a name and a nested container (same ordering rules one level
down); only the name takes part in this container's ordering, so the nested
container's rendering is abstracted as pre-rendered body text. -/
structure Module where
  name : String
  body : List Char

/-- Modelled from the spec: `mod name` followed by the nested container's
text inside an indented block. -/
def Module.fmt (m : Module) (f : Fmt) : Fmt :=
  let f := f.write ("mod " ++ m.name).data
  f.block (fun f => f.write m.body)

/-- `Impl` from `src/impl.rs`. -/
structure Impl where
  target : Ty
  generics : List String
  impl_trait : Option Ty
  assoc_csts : List Field
  assoc_tys : List Field
  bounds : List Bound
  fns : List Function
  macros : List String

/-- `Impl::new` from `src/impl.rs`. -/
def Impl.new (target : Ty) : Impl :=
  { target := target, generics := [], impl_trait := none, assoc_csts := [],
    assoc_tys := [], bounds := [], fns := [], macros := [] }

/-- `Impl::impl_trait` (the builder method): sets the implemented trait. -/
def Impl.with_impl_trait (i : Impl) (t : Ty) : Impl :=
  { i with impl_trait := some t }

/-- `Impl::key_for_sorting` from `src/impl.rs`: the target when it has no
generics or no trait is implemented; otherwise the implemented trait's
first generic argument when the trait is named `From` (`get(0).unwrap()` —
the panic on a `From` trait without generics is modelled as `none`), and
otherwise the implemented trait itself. -/
def Impl.key_for_sorting (i : Impl) : Option Ty :=
  if i.target.generics.isEmpty || i.impl_trait.isNone then
    some i.target
  else
    match i.impl_trait with
    | none => none
    | some implType =>
      if implType.name = "From" then implType.generics.head?
      else some implType

/-- `Impl::fmt` from `src/impl.rs`: macro lines, `impl` with block-level
generics, the optional `Trait for`, the target, the bounds, then an
indented block holding associated constants, associated types and the
functions. -/
def Impl.fmt (i : Impl) (f : Fmt) : Fmt :=
  let f := i.macros.foldl (fun f m => f.write (m ++ "\n").data) f
  let f := f.write ("impl").data
  let f := fmt_generics i.generics f
  let f := match i.impl_trait with
    | some t =>
      let f := f.write (" ").data
      let f := t.fmt f
      f.write (" for").data
    | none => f
  let f := f.write (" ").data
  let f := i.target.fmt f
  let f := fmt_bounds i.bounds f
  f.block (fun f =>
    let f := i.assoc_csts.foldl (fun f cst =>
      let f := match cst.visibility with
        | some vis => f.write (vis ++ " ").data
        | none => f
      let f := f.write ("const " ++ cst.name ++ ": ").data
      let f := cst.ty.fmt f
      f.write (" = " ++ cst.value ++ ";\n").data) f
    let f := i.assoc_tys.foldl (fun f ty =>
      let f := f.write ("type " ++ ty.name ++ " = ").data
      let f := ty.ty.fmt f
      f.write (";\n").data) f
    (match i.fns with
      | [] => f
      | fn0 :: rest =>
        let f := if i.assoc_tys.isEmpty then f else f.write ("\n").data
        let f := fn0.fmt false f
        rest.foldl (fun f fn => fn.fmt false (f.write ("\n").data)) f))

/-- `Item` from `item.rs` (not among the sources, but its variants are
exactly the ones constructed and matched throughout `src/scope.rs`): the
closed tagged union of declaration kinds a scope owns. -/
inductive Item where
  | module (m : Module)
  | struct (s : Struct)
  | function (fn : Function)
  | trait (t : Trait)
  | enum (e : Enum)
  | impl (i : Impl)
  | typeAlias (a : TypeAlias)
  | raw (v : String)

/-- Whether an item is a raw verbatim text block. -/
def Item.isRaw : Item → Bool
  | .raw _ => true
  | _ => false

/-- The composite sort key built for each item in `Scope::fmt`
(`format!("{}-module", ..)` and friends): the declaration's canonical name
followed by a per-kind tag; `astruct` is used instead of `struct` on
purpose (see the source comment) so the struct sorts first alphabetically.
Raw items are not entered into the sorted map (`none`); an `Impl` whose
`key_for_sorting` panics (a `From` trait without generic arguments) is also
`none`. -/
def itemKey : Item → Option String
  | .module m => some (m.name ++ "-module")
  | .struct s => some (s.ty.key_for_sorting ++ "-astruct")
  | .function fn => some (fn.name ++ "-function")
  | .trait t => some (t.ty.key_for_sorting ++ "-trait")
  | .enum e => some (e.ty.key_for_sorting ++ "-enum")
  | .impl i =>
    match i.key_for_sorting with
    | some t => some (t.key_for_sorting ++ "-impl")
    | none => none
  | .typeAlias a => some (a.type_def_ty.key_for_sorting ++ "-alias")
  | .raw _ => none

/-- Rendering dispatch over the item kinds, as in the second match of
`Scope::fmt` (`Raw` was already printed earlier and emits nothing here). -/
def itemFmt : Item → Fmt → Fmt
  | .module m, f => m.fmt f
  | .struct s, f => s.fmt f
  | .function fn, f => fn.fmt false f
  | .trait t, f => t.fmt f
  | .enum e, f => e.fmt f
  | .impl i, f => i.fmt f
  | .typeAlias a, f => a.fmt f
  | .raw _, f => f

/-- Strict lexicographic comparison of character lists by code point.
Models the `Ord` instance of Rust's `String` used by the
`BTreeMap<String, _>` in `Scope::fmt` (byte-wise lexicographic comparison
of the UTF-8 encoding, which coincides with code-point lexicographic
order). -/
def charListLt : List Char → List Char → Bool
  | [], [] => false
  | [], _ :: _ => true
  | _ :: _, [] => false
  | x :: xs, y :: ys =>
    if x.toNat < y.toNat then true
    else if y.toNat < x.toNat then false
    else charListLt xs ys

/-- Strict comparison of sort-key strings (Rust `String` ordering). -/
def keyLt (a b : String) : Bool := charListLt a.data b.data

/-- Insertion into the ordered set of keys of the `BTreeMap` in
`Scope::fmt`: keeps the list strictly sorted and without duplicates. -/
def insert_key (k : String) : List String → List String
  | [] => [k]
  | x :: xs =>
    if keyLt k x then k :: x :: xs
    else if k = x then x :: xs
    else x :: insert_key k xs

/-- `Scope` from `src/scope.rs`: documentation, the two-level import table
(`IndexMap<String, IndexMap<String, Import>>`, modelled as insertion-ordered
association lists), and the ordered list of items. -/
structure Scope where
  docs : Option Docs
  imports : List (String × List (String × Import))
  items : List Item

/-- `Scope::new`. -/
def Scope.new : Scope := { docs := none, imports := [], items := [] }

/-- `IndexMap::entry(k).or_insert(v)`: leaves the map unchanged when the key
is present, otherwise appends the new binding at the end (insertion
order). -/
def entryOrInsert {α : Type} (m : List (String × α)) (k : String) (v : α) :
    List (String × α) :=
  match m with
  | [] => [(k, v)]
  | (k', v') :: rest =>
    if k' = k then (k', v') :: rest else (k', v') :: entryOrInsert rest k v

/-- The nested entry chain of `Scope::new_import`:
`imports.entry(path).or_insert(IndexMap::new()).entry(ty).or_insert_with(..)`. -/
def importsInsert (m : List (String × List (String × Import)))
    (path ty1 : String) (imp : Import) :
    List (String × List (String × Import)) :=
  match m with
  | [] => [(path, [(ty1, imp)])]
  | (p, inner) :: rest =>
    if p = path then (p, entryOrInsert inner ty1 imp) :: rest
    else (p, inner) :: importsInsert rest path ty1 imp

/-- `Scope::new_import` from `src/scope.rs`: the imported name is cut at the
first `::` (`ty.split("::").next()`) so a caller may pass a namespaced name
like `a::B`, and the (path, cut name) pair is inserted into the import
table unless already present. -/
def Scope.new_import (s : Scope) (path ty : String) (al : Option String) : Scope :=
  let ty1 : String := ⟨uptoDoubleColon ty.data⟩
  { s with imports := importsInsert s.imports path ty1 (Import.new path ty1 al) }

/-- In-place update of the value at a key of an association list (the
effect of mutating through the `&mut` returned by an `IndexMap` entry). -/
def assocUpdate {α : Type} (m : List (String × α)) (k : String) (g : α → α) :
    List (String × α) :=
  match m with
  | [] => []
  | (k', v) :: rest =>
    if k' = k then (k', g v) :: rest else (k', v) :: assocUpdate rest k g

/-- Setting the visibility of a stored import: the effect of
`Import::vis` called on the `&mut Import` returned by
`Scope::new_import`. -/
def importsSetVis (m : List (String × List (String × Import)))
    (path ty1 v : String) : List (String × List (String × Import)) :=
  assocUpdate m path (fun inner =>
    assocUpdate inner ty1 (fun imp => { imp with vis := some v }))

/-- The idiom `scope.new_import(path, ty, alias).vis(v)`: register the
new import, then set its visibility through the returned handle. -/
def Scope.new_import_vis (s : Scope) (path ty : String) (al : Option String)
    (v : String) : Scope :=
  let s1 := s.new_import path ty al
  let ty1 : String := ⟨uptoDoubleColon ty.data⟩
  { s1 with imports := importsSetVis s1.imports path ty1 v }

/-- The first loop of `Scope::fmt_imports`: collect the distinct visibility
values over all imports (outer map in insertion order, inner maps in
insertion order), preserving first-seen order. -/
def collect_visibilities (imports : List (String × List (String × Import))) :
    List (Option String) :=
  imports.foldl (fun acc pr =>
    pr.2.foldl (fun acc2 (e : String × Import) =>
      if e.2.vis ∈ acc2 then acc2 else acc2 ++ [e.2.vis]) acc) []

/-- The `{} ` visibility text written before an import line when the
visibility is present. -/
def visText : Option String → List Char
  | some v => (v ++ " ").data
  | none => []

/-- The enumerate loop of `Scope::fmt_imports` writing `, ` before every
name but the first. -/
def commaSep : List String → String
  | [] => ""
  | x :: xs => xs.foldl (fun acc t => acc ++ ", " ++ t) x

/-- One iteration of the per-path loop in `Scope::fmt_imports`: split the
path's imports with the current visibility into aliased (`ty as alias`)
and simple names in one pass, then emit one line per aliased name and one
combined line for the simple names — `use path::name;` for a single name,
`use path::{a, b};` for several — each prefixed by the visibility text when
present. -/
def fmt_import_group_text (vis : Option String) (path : String)
    (entries : List (String × Import)) : List Char :=
  let tys := entries.foldl (fun (p : List String × List String) e =>
      if e.2.vis = vis then
        match e.2.alias' with
        | none => (p.1, p.2 ++ [e.1])
        | some al => (p.1 ++ [e.1 ++ " as " ++ al], p.2)
      else p) ([], [])
  let aliasOut := tys.1.foldl (fun acc t =>
      acc ++ (visText vis ++ ("use " ++ path ++ "::" ++ t ++ ";\n").data)) []
  aliasOut ++
    (match tys.2 with
     | [] => []
     | [t] => visText vis ++ ("use " ++ path ++ "::" ++ t ++ ";\n").data
     | ts => visText vis ++
         ("use " ++ path ++ "::" ++ "\x7b" ++ commaSep ts ++ "\x7d" ++ ";\n").data)

/-- The full text written by `Scope::fmt_imports`: for each visibility in
first-seen order, for each path in insertion order, the path's group.  (The
formatter's `write` calls concatenate, so the text is assembled
directly.) -/
def fmt_imports_text (imports : List (String × List (String × Import))) :
    List Char :=
  (collect_visibilities imports).foldl (fun acc vis =>
    imports.foldl (fun acc2 pr => acc2 ++ fmt_import_group_text vis pr.1 pr.2) acc) []

/-- `Scope::fmt_imports` from `src/scope.rs`. -/
def Scope.fmt_imports (s : Scope) (f : Fmt) : Fmt :=
  f.write (fmt_imports_text s.imports)

/-- The ordered key set of the `BTreeMap<String, Vec<&Item>>` built in
`Scope::fmt`: every item's sort key inserted in turn. -/
def Scope.sorted_keys (items : List Item) : List String :=
  (items.filterMap itemKey).foldl (fun acc k => insert_key k acc) []

/-- The sequence in which `Scope::fmt` renders the declarations: keys in
`BTreeMap` order, and per key the bucket `Vec<&Item>` holding the items
with that key in insertion (push) order. -/
def Scope.sorted_item_sequence (items : List Item) : List Item :=
  (Scope.sorted_keys items).flatMap
    (fun k => items.filter (fun it => decide (itemKey it = some k)))

/-- `Scope::fmt` from `src/scope.rs`: (1) all raw items in insertion order,
each on its own line, followed by a blank line if any; (2) the consolidated
imports and a blank line if the import table is non-empty; (3) the
declarations in sorted order, with one blank line between consecutive
rendered items (`has_item` starts false; raw items are skipped — their
buckets never exist). -/
def Scope.fmt (s : Scope) (f : Fmt) : Fmt :=
  let rawp := s.items.foldl (fun (p : Fmt × Bool) it =>
      match it with
      | Item.raw v => (p.1.write (v.data ++ ['\n']), true)
      | _ => p) (f, false)
  let f := if rawp.2 then rawp.1.write ['\n'] else rawp.1
  let f := s.fmt_imports f
  let f := if s.imports.isEmpty then f else f.write ['\n']
  ((Scope.sorted_item_sequence s.items).foldl (fun (p : Fmt × Bool) it =>
      match it with
      | Item.raw _ => p
      | _ => (itemFmt it (if p.2 then p.1.write ['\n'] else p.1), true)) (f, false)).1

/-- `Scope::to_string` from `src/scope.rs`: format into a fresh sink, then
remove a trailing newline if the result ends with one. -/
def Scope.to_string (s : Scope) : List Char :=
  let ret := (s.fmt Fmt.init).out
  if ret.getLast? = some '\n' then ret.dropLast else ret

/-! ## Specification-side definitions

Definitions in this section follow the wording of the specification (for
the refinement claims); they are compared with the source-derived
definitions above. -/

/-- Spec wording of the §4.3 sort-key rule for `Impl`, branching first on
whether a trait is implemented: with no implemented trait the key is the
target; otherwise, if the target has no generics the key is still the
target; otherwise the `From` trait contributes its first generic argument
and any other trait contributes itself. -/
def key_for_sorting_spec (i : Impl) : Option Ty :=
  match i.impl_trait with
  | none => some i.target
  | some tr =>
    match i.target.generics with
    | [] => some i.target
    | _ :: _ =>
      if tr.name = "From" then tr.generics.head?
      else some tr

/-! ## Concrete values used by the claims -/

/-- `Type::new("Foo")`. -/
def tyFoo : Ty := .mk "Foo" []

/-- `Type::new("From").generic("Bar")`, i.e. the trait `From<Bar>`. -/
def tyFromBar : Ty := .mk "From" [.mk "Bar" []]

/-- `Impl::new("Foo")`. -/
def implFooPlain : Impl := Impl.new tyFoo

/-- `Impl::new("Foo").impl_trait(From<Bar>)` (first block of the
`type_alias` test in `src/impl.rs`). -/
def implFooFromBar : Impl := (Impl.new tyFoo).with_impl_trait tyFromBar

/-- `Impl::new("Vec").target_generic("Foo").impl_trait(From<Bar>)` (second
block of the `type_alias` test in `src/impl.rs`). -/
def implVecFooFromBar : Impl :=
  (Impl.new (.mk "Vec" [.mk "Foo" []])).with_impl_trait tyFromBar

/-- `Struct::new("Foo")`. -/
def structFoo : Struct := Struct.ofTy (.mk "Foo" [])

/-- `Enum::new("Bar")`. -/
def enumBar : Enum := { type_def := TypeDef.ofTy (.mk "Bar" []), variants := [] }

/-- `TypeAlias::new("Foo", "Bar")`. -/
def aliasFoo : TypeAlias := TypeAlias.ofTy (.mk "Foo" []) (.mk "Bar" [])

/-- A scope whose only item is the raw text `x`. -/
def rawOnlyScope : Scope := { docs := none, imports := [], items := [Item.raw "x"] }

/-- Whether a character list ends with two consecutive newlines. -/
def endsWithTwoNewlines (l : List Char) : Prop :=
  l.getLast? = some '\n' ∧ l.dropLast.getLast? = some '\n'

instance (l : List Char) : Decidable (endsWithTwoNewlines l) := by
  unfold endsWithTwoNewlines; infer_instance

/-! ## Claims -/

/-- Claim C7: Tuple/Named exclusivity of `Fields`.  A named field list
rejects tuple fields (`Fields::tuple` panics, modelled as `none`, producing
no modified value) and accepts further named fields; a tuple field list
rejects named fields and accepts further tuple fields; only the `Empty`
state accepts either kind, transitioning to that kind. -/
theorem fields_mode_exclusivity :
    (∀ l vis t, Fields.tuple (Fields.Named l) vis t = none)
    ∧ (∀ l f, Fields.push_named (Fields.Tuple l) f = none)
    ∧ (∀ l f, Fields.push_named (Fields.Named l) f = some (Fields.Named (l ++ [f])))
    ∧ (∀ l vis t, Fields.tuple (Fields.Tuple l) vis t = some (Fields.Tuple (l ++ [(vis, t)])))
    ∧ (∀ f, Fields.push_named Fields.Empty f = some (Fields.Named [f]))
    ∧ (∀ vis t, Fields.tuple Fields.Empty vis t = some (Fields.Tuple [(vis, t)])) :=
  ⟨fun _ _ _ => rfl, fun _ _ => rfl, fun _ _ => rfl, fun _ _ _ => rfl,
   fun _ => rfl, fun _ _ => rfl⟩

/-- Claim C4: `Impl::key_for_sorting` satisfies the three-branch rule of
the specification — target type when the target has no generics or no
trait is implemented; otherwise the `From` trait's first generic argument;
otherwise the implemented trait itself. -/
theorem impl_key_for_sorting_three_branch_rule (i : Impl) :
    Impl.key_for_sorting i = key_for_sorting_spec i := by
  unfold Impl.key_for_sorting key_for_sorting_spec
  cases htr : i.impl_trait with
  | none => simp
  | some tr =>
    cases hg : i.target.generics with
    | nil => simp [hg]
    | cons x xs => simp [hg]


/-- Claim C2 (counterexample): for an `Impl` whose target is plain `Foo`
(no generics) implementing `From<Bar>`, the sort key is *not* `Bar` — the
first branch of `Impl::key_for_sorting` fires because the target has no
generics, exactly as the `type_alias` test in `src/impl.rs` asserts. -/
theorem impl_from_for_plain_target_key_not_bar :
    ¬ ((Impl.key_for_sorting implFooFromBar).map Ty.name = some "Bar") := by
  decide

/-- Claim C2 (amended): for an `Impl` with plain target `Foo` and no trait
the sort key is `Foo`; for plain target `Foo` implementing `From<Bar>` the
key is still `Foo` (the target has no generics, so the first branch
applies); the key is `Bar` when the target has generics, e.g. target
`Vec<Foo>` implementing `From<Bar>` — matching the source's own test. -/
theorem impl_sort_key_concrete_examples :
    Impl.key_for_sorting implFooPlain = some tyFoo
    ∧ Impl.key_for_sorting implFooFromBar = some tyFoo
    ∧ Impl.key_for_sorting implVecFooFromBar = some (Ty.mk "Bar" []) :=
  ⟨rfl, rfl, rfl⟩

/-- Claim C3 (code evidence): with equal identifiers a `TypeAlias` is
rendered *before* a `Struct`, because the alias kind tag gives the key
`Foo-alias`, which sorts strictly below the struct key `Foo-astruct` —
contradicting the source comment that the struct "always comes first in
alphabetical order" and the specification's per-kind-tag rule. -/
theorem type_alias_sorts_before_struct_same_identifier :
    Scope.sorted_item_sequence [Item.struct structFoo, Item.typeAlias aliasFoo]
      = [Item.typeAlias aliasFoo, Item.struct structFoo]
    ∧ itemKey (Item.struct structFoo) = some "Foo-astruct"
    ∧ itemKey (Item.typeAlias aliasFoo) = some "Foo-alias"
    ∧ keyLt "Foo-alias" "Foo-astruct" = true :=
  ⟨rfl, rfl, rfl, rfl⟩

/-- Claim C8 (counterexample): a scope holding only the raw item `x`
renders as `x\n\n` (the raw line plus the separating blank line),
`Scope::to_string` removes only one of the two trailing newlines, and the
returned text still ends with a newline character. -/
theorem raw_only_scope_keeps_trailing_newline :
    (Scope.to_string rawOnlyScope).getLast? = some '\n' := by
  decide

/-- Claim C8 (amended): `Scope::to_string` removes a single trailing
newline from the formatted text; whenever the formatted text does not end
in two consecutive newlines, the returned text does not end with a newline
character. -/
theorem to_string_trims_one_trailing_newline (s : Scope)
    (h : ¬ endsWithTwoNewlines (Scope.fmt s Fmt.init).out) :
    ¬ (Scope.to_string s).getLast? = some '\n' := by
  simp only [Scope.to_string]
  by_cases hl : (Scope.fmt s Fmt.init).out.getLast? = some '\n'
  · rw [if_pos hl]
    intro hd
    exact h ⟨hl, hd⟩
  · rw [if_neg hl]
    exact hl

/-- Witness for C8 (amended): the empty scope renders to empty text, whose
trimmed form does not end with a newline. -/
theorem to_string_trims_one_trailing_newline_witness :
    ¬ (Scope.to_string Scope.new).getLast? = some '\n' :=
  to_string_trims_one_trailing_newline Scope.new (by decide)

/-- Claim C9 (counterexample): the regex's `.` does not cross a newline, so
`Type::new` does not always split a `<`…`>` string into name plus the
entire bracketed text.  `A<x\ny>` contains `<` with a closing `>` but the
only `>` lies beyond a newline, so the regex finds no match and the source
panics (modelled `none`) instead of capturing `x\ny`; and for `A<B>\nx>`
the captured generic is `B` — the last `>` before the newline — not the
entire text `B>\nx` up to the last `>`. -/
theorem type_new_newline_defeats_single_split :
    Ty.new "A<x\ny>" = none
    ∧ ¬ (Ty.new "A<x\ny>" = some (Ty.mk "A" [Ty.mk "x\ny" []]))
    ∧ Ty.new "A<B>\nx>" = some (Ty.mk "A" [Ty.mk "B" []]) := by
  refine ⟨rfl, ?_, rfl⟩
  intro h
  rw [show Ty.new "A<x\ny>" = none from rfl] at h
  cases h

/-- `regexScan` walks over characters that are not `<`, accumulating them
into the group-1 text. -/
lemma regexScan_append (A : List Char) (h : ∀ c ∈ A, ¬ c = '<') :
    ∀ (acc rest : List Char),
      regexScan acc (A ++ rest) = regexScan (A.reverse ++ acc) rest := by
  induction A with
  | nil => intro acc rest; simp
  | cons c A' ih =>
    intro acc rest
    have hc : ¬ c = '<' := h c (List.mem_cons_self c A')
    have hA' : ∀ d ∈ A', ¬ d = '<' := fun d hd => h d (List.mem_cons_of_mem c hd)
    rw [List.cons_append]
    show regexScan acc (c :: (A' ++ rest)) = _
    rw [regexScan, if_neg hc, ih hA']
    simp [List.append_assoc]

/-- Claim C9 (amended): `Type::new` on a string containing `<` splits at
the first `<` that is followed by a `>` before the next newline, into the
name part and the captured text registered as one single generic
argument: `Map<K, V>` yields one argument `K, V` (not two), `Vec<Vec<u8>>`
yields the single argument `Vec<u8>`, and in general `name<gen>` — for a
name free of `<` and a `gen` free of newlines — yields exactly the type
`name` with the one generic argument `gen` (the entire bracketed text up to
the last `>`). -/
theorem type_new_splits_at_first_delimiter :
    Ty.new "Map<K, V>" = some (Ty.mk "Map" [Ty.mk "K, V" []])
    ∧ Ty.new "Vec<Vec<u8>>" = some (Ty.mk "Vec" [Ty.mk "Vec<u8>" []])
    ∧ ∀ (name gen : String), '<' ∉ name.data → '\n' ∉ gen.data →
        Ty.new (name ++ "<" ++ gen ++ ">") = some (Ty.mk name [Ty.mk gen []]) := by
  refine ⟨rfl, rfl, ?_⟩
  intro name gen h hnl
  have hdata : (name ++ "<" ++ gen ++ ">").data
      = name.data ++ ('<' :: (gen.data ++ ['>'])) := by
    simp [String.data_append]
  have hname : ∀ c ∈ name.data, ¬ c = '<' := by
    intro c hc hcontra
    exact h (hcontra ▸ hc)
  have hany : (name ++ "<" ++ gen ++ ">").data.any (fun c => c = '<') = true := by
    rw [hdata]
    simp
  rw [Ty.new, if_pos hany, split_name_and_generic]
  rw [hdata, regexScan_append name.data hname [] ('<' :: (gen.data ++ ['>']))]
  rw [regexScan, if_pos rfl]
  have hgen : ∀ a ∈ gen.data, (fun c => (¬ (c = '\n') : Bool)) a = true := by
    intro a ha
    simp only [decide_eq_true_eq]
    intro hcontra
    exact hnl (hcontra ▸ ha)
  have htw : (gen.data ++ ['>']).takeWhile (fun c => (¬ (c = '\n') : Bool))
      = gen.data ++ ['>'] := by
    rw [List.takeWhile_append_of_pos hgen]
    congr 1
  rw [htw]
  have hrev : (gen.data ++ ['>']).reverse = '>' :: gen.data.reverse := by simp
  rw [hrev, List.dropWhile_cons_of_neg (by simp)]
  simp only [List.append_nil, List.reverse_reverse]
  simp only [Ty.generic, Ty.fromString, Ty.name, Ty.generics]
  rw [if_neg ?hneg]
  case hneg =>
    simp only [List.any_eq_true, decide_eq_true_eq]
    rintro ⟨x, hx, rfl⟩
    exact h hx
  simp only [List.append_nil, List.reverse_reverse, List.nil_append,
    Option.some.injEq]

/-- Witness for C9 (amended): the general splitting law applied to `Map`
and `K, V` (name free of `<`, generic text free of newlines). -/
theorem type_new_splits_at_first_delimiter_witness :
    Ty.new ("Map" ++ "<" ++ "K, V" ++ ">") = some (Ty.mk "Map" [Ty.mk "K, V" []]) :=
  type_new_splits_at_first_delimiter.2.2 "Map" "K, V" (by decide) (by decide)

/-- `uptoDoubleColon [d] = [d]`: a single character contains no `::`. -/
lemma uptoDoubleColon_singleton (d : Char) : uptoDoubleColon [d] = [d] := by
  rw [uptoDoubleColon.eq_3 d [] (fun tail _ h => by cases h), uptoDoubleColon.eq_1]

/-- `uptoDoubleColon` either empties a non-empty list (it starts with `::`)
or keeps its head. -/
lemma uptoDoubleColon_head_shape (d : Char) (t : List Char) :
    uptoDoubleColon (d :: t) = [] ∨ ∃ t2, uptoDoubleColon (d :: t) = d :: t2 := by
  cases t with
  | nil => exact Or.inr ⟨[], uptoDoubleColon_singleton d⟩
  | cons e t3 =>
    by_cases hc : d = ':' ∧ e = ':'
    · left
      rw [hc.1, hc.2]
      exact uptoDoubleColon.eq_2 t3
    · right
      exact ⟨uptoDoubleColon (e :: t3),
        uptoDoubleColon.eq_3 d (e :: t3) (fun tail hd he => hc ⟨hd, by cases he; rfl⟩)⟩

/-- Cutting before the first `::` is idempotent: the cut prefix contains no
`::`, so cutting it again changes nothing. -/
lemma uptoDoubleColon_idem (l : List Char) :
    uptoDoubleColon (uptoDoubleColon l) = uptoDoubleColon l := by
  induction l using uptoDoubleColon.induct with
  | case1 => rfl
  | case2 rest => rfl
  | case3 c rest hne ih =>
    rw [uptoDoubleColon.eq_3 c rest hne]
    cases rest with
    | nil =>
      rw [uptoDoubleColon.eq_1]
      exact uptoDoubleColon_singleton c
    | cons d t =>
      rcases uptoDoubleColon_head_shape d t with hnil | ⟨t2, hshape⟩
      · rw [hnil]
        exact uptoDoubleColon_singleton c
      · rw [hshape]
        have hne2 : ∀ tail, c = ':' → d :: t2 = ':' :: tail → False := by
          intro tail hcc hdd
          injection hdd with h1 _
          exact hne t hcc (by rw [h1])
        rw [uptoDoubleColon.eq_3 c (d :: t2) hne2]
        rw [hshape] at ih
        rw [ih]

/-- Claim C10: when the imported-name argument of `Scope::new_import`
contains the path separator `::`, only the segment before the first `::` is
used — registering any name is the same as registering its cut prefix, the
cut prefix of `a::B` is `a`, and a scope that registered `(p, a::B)`
renders the single import line `use p::a;` with `::B` discarded. -/
theorem new_import_truncates_name_at_double_colon :
    (∀ s path ty al, Scope.new_import s path ty al
        = Scope.new_import s path ⟨uptoDoubleColon ty.data⟩ al)
    ∧ uptoDoubleColon ("a::B").data = ("a").data
    ∧ (Scope.fmt_imports (Scope.new_import Scope.new "p" "a::B" none) Fmt.init).out
        = ("use p::a;\n").data := by
  refine ⟨?_, by decide, by decide⟩
  intro s path ty al
  have h : (⟨uptoDoubleColon (String.data ⟨uptoDoubleColon ty.data⟩)⟩ : String)
      = ⟨uptoDoubleColon ty.data⟩ := by
    rw [show String.data ⟨uptoDoubleColon ty.data⟩ = uptoDoubleColon ty.data from rfl,
      uptoDoubleColon_idem]
  simp only [Scope.new_import, h]

/-- `IndexMap` entries are write-once: a second `entry(k).or_insert` leaves
the map unchanged, whatever value it offers. -/
lemma entryOrInsert_twice {α : Type} (m : List (String × α)) (k : String) (v v' : α) :
    entryOrInsert (entryOrInsert m k v) k v' = entryOrInsert m k v := by
  induction m with
  | nil => simp [entryOrInsert]
  | cons pr rest ih =>
    obtain ⟨k1, v1⟩ := pr
    by_cases hk : k1 = k
    · simp [entryOrInsert, hk]
    · simp [entryOrInsert, hk, ih]

/-- Registering the same `(path, name)` pair twice leaves the two-level
table of imports unchanged by the second registration. -/
lemma importsInsert_twice (m : List (String × List (String × Import)))
    (path ty1 : String) (imp imp' : Import) :
    importsInsert (importsInsert m path ty1 imp) path ty1 imp'
      = importsInsert m path ty1 imp := by
  induction m with
  | nil => simp [importsInsert, entryOrInsert]
  | cons pr rest ih =>
    obtain ⟨p1, inner⟩ := pr
    by_cases hp : p1 = path
    · simp [importsInsert, hp, entryOrInsert_twice]
    · simp [importsInsert, hp, ih]

/-- Updating an association-list value twice with an idempotent function is
the same as updating it once. -/
lemma assocUpdate_twice_of_idem {α : Type} (m : List (String × α)) (k : String)
    (g : α → α) (hg : ∀ x, g (g x) = g x) :
    assocUpdate (assocUpdate m k g) k g = assocUpdate m k g := by
  induction m with
  | nil => simp [assocUpdate]
  | cons pr rest ih =>
    obtain ⟨k1, v1⟩ := pr
    by_cases hk : k1 = k
    · simp [assocUpdate, hk, hg]
    · simp [assocUpdate, hk, ih]

/-- After an `or_insert` the key is present, so updating its value and then
re-running `or_insert` (with any value) changes nothing. -/
lemma entryOrInsert_after_update {α : Type} (m : List (String × α)) (k : String)
    (v : α) (g : α → α) (v' : α) :
    entryOrInsert (assocUpdate (entryOrInsert m k v) k g) k v'
      = assocUpdate (entryOrInsert m k v) k g := by
  induction m with
  | nil => simp [entryOrInsert, assocUpdate]
  | cons pr rest ih =>
    obtain ⟨k1, v1⟩ := pr
    by_cases hk : k1 = k
    · simp [entryOrInsert, assocUpdate, hk]
    · simp [entryOrInsert, assocUpdate, hk, ih]

/-- Two-level version of `entryOrInsert_after_update` for the import
table. -/
lemma importsInsert_after_setVis (m : List (String × List (String × Import)))
    (path ty1 : String) (imp : Import) (v : String) (imp' : Import) :
    importsInsert (importsSetVis (importsInsert m path ty1 imp) path ty1 v) path ty1 imp'
      = importsSetVis (importsInsert m path ty1 imp) path ty1 v := by
  induction m with
  | nil => simp [importsInsert, importsSetVis, assocUpdate, entryOrInsert]
  | cons pr rest ih =>
    obtain ⟨p1, inner⟩ := pr
    by_cases hp : p1 = path
    · simp only [importsInsert, importsSetVis, assocUpdate, hp, if_pos]
      simp [entryOrInsert_after_update]
    · simp only [importsInsert, importsSetVis, assocUpdate, hp, if_neg,
        ite_false, if_false]
      simp only [importsSetVis] at ih
      simp [hp, ih]

/-- Setting the same visibility twice on the stored import is the same as
setting it once. -/
lemma importsSetVis_twice (m : List (String × List (String × Import)))
    (path ty1 v : String) :
    importsSetVis (importsSetVis m path ty1 v) path ty1 v
      = importsSetVis m path ty1 v := by
  unfold importsSetVis
  exact assocUpdate_twice_of_idem m path _
    (fun inner => assocUpdate_twice_of_idem inner ty1 _ (fun _ => rfl))

/-- Claim C6: registering the same `(path, name)` import twice with
identical visibility and alias collapses to a single registration — both
for plain `new_import` and for the `new_import(..).vis(v)` idiom — and the
rendered output consequently holds exactly one import line for the pair
(for a scope holding only the doubly registered `(p, T)`, the import block
is exactly the single line `use p::T;`). -/
theorem import_registration_deduplicates :
    (∀ s path ty al, Scope.new_import (Scope.new_import s path ty al) path ty al
        = Scope.new_import s path ty al)
    ∧ (∀ s path ty al v,
        Scope.new_import_vis (Scope.new_import_vis s path ty al v) path ty al v
          = Scope.new_import_vis s path ty al v)
    ∧ (Scope.fmt_imports
        (Scope.new_import (Scope.new_import Scope.new "p" "T" none) "p" "T" none)
        Fmt.init).out = ("use p::T;\n").data := by
  refine ⟨?_, ?_, by decide⟩
  · intro s path ty al
    simp only [Scope.new_import, importsInsert_twice]
  · intro s path ty al v
    simp only [Scope.new_import_vis, Scope.new_import]
    rw [importsInsert_after_setVis, importsSetVis_twice]

/-! ### The import block, as the specification words it (§4.4)

The following definitions restate the import-consolidation algorithm in
the spec's terms — a flat list of import *lines* grouped by visibility in
first-seen order, then by path in first-seen order — to be compared with
the source-derived `fmt_imports_text`. -/

/-- First-seen-order deduplication of a list. -/
def dedup_first_seen (l : List (Option String)) : List (Option String) :=
  l.foldl (fun acc v => if v ∈ acc then acc else acc ++ [v]) []

/-- Spec §4.4 step (1): the distinct visibility values present across all
registered imports, in first-seen order, with "no explicit visibility" as
its own value. -/
def seen_visibilities (imports : List (String × List (String × Import))) :
    List (Option String) :=
  dedup_first_seen (imports.flatMap (fun pr => pr.2.map (fun e => e.2.vis)))

/-- An import line prefixed with the visibility text when present. -/
def import_line (vis : Option String) (body : String) : String :=
  match vis with
  | some v => v ++ " " ++ body
  | none => body

/-- The `name as alias` strings collected for one (visibility, path) group
(the contents of the source's `alias_tys` vector). -/
def aliased_raw (vis : Option String) (entries : List (String × Import)) :
    List String :=
  entries.filterMap (fun e =>
    if e.2.vis = vis then
      match e.2.alias' with
      | some al => some (e.1 ++ " as " ++ al)
      | none => none
    else none)

/-- Spec §4.4: the names of a path's imports with the given visibility that
carry no alias, in registration order. -/
def simple_import_names (vis : Option String) (entries : List (String × Import)) :
    List String :=
  entries.filterMap (fun e =>
    if e.2.vis = vis then
      match e.2.alias' with
      | none => some e.1
      | some _ => none
    else none)

/-- Spec §4.4 step (3): one import line per aliased name,
`use path::name as alias;`, prefixed by the visibility text if present. -/
def aliased_import_lines (vis : Option String) (path : String)
    (entries : List (String × Import)) : List String :=
  entries.filterMap (fun e =>
    if e.2.vis = vis then
      match e.2.alias' with
      | some al =>
        some (import_line vis ("use " ++ path ++ "::" ++ e.1 ++ " as " ++ al ++ ";\n"))
      | none => none
    else none)

/-- Comma-separated concatenation, recursively (spec wording: the names
`name1, name2, ...` in registration order). -/
def comma_separated : List String → String
  | [] => ""
  | [x] => x
  | x :: xs => x ++ ", " ++ comma_separated xs

/-- Spec §4.4 step (4): the single combined line for the non-aliased names
of a path — nothing for no names, `use path::name;` for one name,
`use path::{name1, name2};` for several. -/
def combined_import_line (vis : Option String) (path : String)
    (names : List String) : List String :=
  match names with
  | [] => []
  | [n] => [import_line vis ("use " ++ path ++ "::" ++ n ++ ";\n")]
  | ns => [import_line vis
      ("use " ++ path ++ "::" ++ "\x7b" ++ comma_separated ns ++ "\x7d" ++ ";\n")]

/-- The whole import block as the spec words it: for each visibility in
first-seen order and each path in first-seen order, the aliased lines
followed by the combined line. -/
def import_lines_spec (imports : List (String × List (String × Import))) :
    List String :=
  (seen_visibilities imports).flatMap (fun vis =>
    imports.flatMap (fun pr =>
      aliased_import_lines vis pr.1 pr.2
        ++ combined_import_line vis pr.1 (simple_import_names vis pr.2)))

/-- The source's nested visibility-collection loops equal the flat
first-seen deduplication of all visibilities. -/
lemma collect_eq_seen (imports : List (String × List (String × Import))) :
    collect_visibilities imports = seen_visibilities imports := by
  unfold collect_visibilities seen_visibilities dedup_first_seen
  have aux : ∀ (imps : List (String × List (String × Import)))
      (acc : List (Option String)),
      imps.foldl (fun acc pr =>
        pr.2.foldl (fun acc2 (e : String × Import) =>
          if e.2.vis ∈ acc2 then acc2 else acc2 ++ [e.2.vis]) acc) acc
      = (imps.flatMap (fun pr => pr.2.map (fun e => e.2.vis))).foldl
          (fun acc v => if v ∈ acc then acc else acc ++ [v]) acc := by
    intro imps
    induction imps with
    | nil => intro acc; rfl
    | cons pr rest ih =>
      intro acc
      simp only [List.foldl_cons, List.flatMap_cons, List.foldl_append, List.foldl_map]
      rw [ih]
  exact aux imports []

/-- The one-pass split of a path's entries into `alias_tys` and
`simple_tys` equals the two filters. -/
lemma group_fold_split (vis : Option String) (entries : List (String × Import)) :
    ∀ A S : List String,
      entries.foldl (fun (p : List String × List String) e =>
        if e.2.vis = vis then
          match e.2.alias' with
          | none => (p.1, p.2 ++ [e.1])
          | some al => (p.1 ++ [e.1 ++ " as " ++ al], p.2)
        else p) (A, S)
      = (A ++ aliased_raw vis entries, S ++ simple_import_names vis entries) := by
  induction entries with
  | nil => intro A S; simp [aliased_raw, simple_import_names]
  | cons e rest ih =>
    intro A S
    by_cases hv : e.2.vis = vis
    · cases hal : e.2.alias' with
      | none =>
        simp only [List.foldl_cons, hv, if_pos, hal, ih, aliased_raw,
          simple_import_names, List.filterMap_cons, List.append_assoc,
          List.singleton_append]
      | some al =>
        simp only [List.foldl_cons, hv, if_pos, hal, ih, aliased_raw,
          simple_import_names, List.filterMap_cons, List.append_assoc,
          List.singleton_append]
    · simp only [List.foldl_cons, hv, ite_false]
      rw [ih]
      simp [aliased_raw, simple_import_names, List.filterMap_cons, hv]

/-- Left folds that append a chunk per element produce the concatenation of
all chunks. -/
lemma foldl_append_flatten {α : Type} (g : α → List Char) (l : List α) :
    ∀ acc : List Char, l.foldl (fun a x => a ++ g x) acc = acc ++ (l.map g).flatten := by
  induction l with
  | nil => intro acc; simp
  | cons x xs ih => intro acc; simp [ih, List.append_assoc]

/-- The characters of an import line: the visibility text followed by the
body. -/
lemma import_line_data (vis : Option String) (body : String) :
    (import_line vis body).data = visText vis ++ body.data := by
  cases vis with
  | none => simp [import_line, visText]
  | some v => simp [import_line, visText, String.data_append]

/-- The aliased lines of a group, at the character level. -/
lemma aliased_lines_data (vis : Option String) (path : String)
    (entries : List (String × Import)) :
    (aliased_import_lines vis path entries).map String.data
      = (aliased_raw vis entries).map
          (fun t => visText vis ++ ("use " ++ path ++ "::" ++ t ++ ";\n").data) := by
  unfold aliased_import_lines aliased_raw
  rw [List.map_filterMap, List.map_filterMap]
  apply List.filterMap_congr
  intro e _
  by_cases hv : e.2.vis = vis
  · cases hal : e.2.alias' with
    | none => simp [hv, hal]
    | some al =>
      simp [hv, hal, import_line_data, String.data_append, List.append_assoc]
  · simp [hv]

/-- The enumerate-based separator loop equals the recursive
comma-separated concatenation. -/
lemma commaSep_foldl (xs : List String) :
    ∀ acc : String,
      xs.foldl (fun a t => a ++ ", " ++ t) acc = comma_separated (acc :: xs) := by
  induction xs with
  | nil => intro acc; rfl
  | cons y ys ih =>
    intro acc
    rw [List.foldl_cons, ih]
    cases ys with
    | nil => rfl
    | cons z zs =>
      show (acc ++ ", " ++ y) ++ ", " ++ comma_separated (z :: zs)
          = acc ++ ", " ++ (y ++ ", " ++ comma_separated (z :: zs))
      simp [String.append_assoc]

/-- `commaSep` (source loop) equals `comma_separated` (spec wording). -/
lemma commaSep_eq (l : List String) : commaSep l = comma_separated l := by
  cases l with
  | nil => rfl
  | cons x xs => exact commaSep_foldl xs x

/-- One (visibility, path) group renders exactly its spec lines. -/
lemma group_text_eq (vis : Option String) (path : String)
    (entries : List (String × Import)) :
    fmt_import_group_text vis path entries
      = ((aliased_import_lines vis path entries
          ++ combined_import_line vis path (simple_import_names vis entries)).map
            String.data).flatten := by
  unfold fmt_import_group_text
  rw [group_fold_split vis entries [] []]
  simp only [List.nil_append]
  rw [foldl_append_flatten]
  rw [List.map_append, List.flatten_append, List.nil_append]
  rw [aliased_lines_data]
  congr 1
  cases hs : simple_import_names vis entries with
  | nil => simp [combined_import_line]
  | cons n ns =>
    cases ns with
    | nil =>
      simp [combined_import_line, import_line_data, String.data_append]
    | cons n2 ns2 =>
      simp [combined_import_line, import_line_data, commaSep_eq,
        String.data_append, List.append_assoc]

/-- Pushing `map`/`flatten` through a `flatMap`. -/
lemma flatten_map_flatMap {α β γ : Type} (l : List α) (f : α → List β) (g : β → List γ) :
    ((l.flatMap f).map g).flatten = (l.map (fun a => ((f a).map g).flatten)).flatten := by
  induction l with
  | nil => rfl
  | cons x xs ih =>
    simp only [List.flatMap_cons, List.map_append, List.flatten_append, ih,
      List.map_cons, List.flatten_cons]

/-- The text written by `Scope::fmt_imports` is exactly the concatenation
of the spec's import lines. -/
lemma fmt_imports_text_eq (imports : List (String × List (String × Import))) :
    fmt_imports_text imports = ((import_lines_spec imports).map String.data).flatten := by
  unfold fmt_imports_text import_lines_spec
  rw [collect_eq_seen, flatten_map_flatMap]
  have inner : ∀ vis acc, imports.foldl
      (fun acc2 pr => acc2 ++ fmt_import_group_text vis pr.1 pr.2) acc
      = acc ++ (imports.map (fun pr => fmt_import_group_text vis pr.1 pr.2)).flatten :=
    fun vis acc => foldl_append_flatten _ imports acc
  simp only [inner]
  rw [foldl_append_flatten
    (fun vis => (imports.map (fun pr => fmt_import_group_text vis pr.1 pr.2)).flatten)
    (seen_visibilities imports) []]
  simp only [List.nil_append]
  congr 1
  apply List.map_congr_left
  intro vis _
  rw [flatten_map_flatMap]
  congr 1
  apply List.map_congr_left
  intro pr _
  exact group_text_eq vis pr.1 pr.2

/-- Writing a single character at indentation depth 0 appends exactly that
character. -/
lemma writeChar_indent_zero (f : Fmt) (c : Char) (h : f.indentLevel = 0) :
    (f.writeChar c).out = f.out ++ [c] ∧ (f.writeChar c).indentLevel = 0 := by
  unfold Fmt.writeChar
  split_ifs <;> simp [h]

/-- Writing text at indentation depth 0 appends exactly that text. -/
lemma write_out_indent_zero (cs : List Char) :
    ∀ f : Fmt, f.indentLevel = 0 →
      (f.write cs).out = f.out ++ cs ∧ (f.write cs).indentLevel = 0 := by
  induction cs with
  | nil => intro f h; exact ⟨(List.append_nil _).symm, h⟩
  | cons c rest ih =>
    intro f h
    have hc := writeChar_indent_zero f c h
    have := ih (f.writeChar c) hc.2
    refine ⟨?_, this.2⟩
    rw [show Fmt.write f (c :: rest) = Fmt.write (f.writeChar c) rest from rfl,
      this.1, hc.1, List.append_assoc]
    rfl

/-- Claim C5: the consolidated import block is emitted grouped by
visibility in first-seen order, then by source path in first-seen order;
within a group each aliased name gets its own `use path::name as alias;`
line and the non-aliased names are combined on one line (`use path::name;`
for one, `use path::{name1, name2};` in registration order for several),
with the visibility text prefixed to each line when present — the text
written by `Scope::fmt_imports` is exactly the concatenation of those spec
lines. -/
theorem fmt_imports_emits_grouped_lines (s : Scope) :
    (Scope.fmt_imports s Fmt.init).out
      = ((import_lines_spec s.imports).map String.data).flatten := by
  unfold Scope.fmt_imports
  rw [(write_out_indent_zero (fmt_imports_text s.imports) Fmt.init rfl).1]
  rw [show Fmt.init.out = [] from rfl, List.nil_append]
  exact fmt_imports_text_eq s.imports

/-! ### Order independence of the sorted rendering (C1) -/

/-- Two consecutive writes concatenate. -/
lemma write_write (f : Fmt) (a b : List Char) :
    (f.write a).write b = f.write (a ++ b) := by
  unfold Fmt.write
  rw [List.foldl_append]

/-- The text a single item contributes to the raw pass of `Scope::fmt`. -/
def rawChunk : Item → List Char
  | .raw v => v.data ++ ['\n']
  | _ => []

/-- The text of the whole raw pass: each raw item on its own line, in
insertion order. -/
def rawText (l : List Item) : List Char := l.flatMap rawChunk

/-- The raw-item loop of `Scope::fmt` writes `rawText` and records whether
any raw item was seen. -/
lemma raw_fold (l : List Item) : ∀ p : Fmt × Bool,
    l.foldl (fun (p : Fmt × Bool) it =>
      match it with
      | Item.raw v => (p.1.write (v.data ++ ['\n']), true)
      | _ => p) p
    = (p.1.write (rawText l), p.2 || l.any Item.isRaw) := by
  induction l with
  | nil =>
    intro p
    show p = (p.1.write [], p.2 || false)
    simp [Fmt.write]
  | cons it rest ih =>
    intro p
    rw [List.foldl_cons]
    cases it <;>
      simp only [ih, rawText, List.flatMap_cons, rawChunk, List.nil_append,
        List.any_cons, Item.isRaw, write_write, Bool.false_or, Bool.true_or,
        Bool.or_assoc, Bool.or_true, Bool.true_and]

/-- `Scope::fmt` is determined by the import table, the raw text, the
presence of raw items, and the sorted declaration sequence. -/
lemma scope_fmt_eq (s₁ s₂ : Scope)
    (himp : s₁.imports = s₂.imports)
    (hraw : rawText s₁.items = rawText s₂.items)
    (hany : s₁.items.any Item.isRaw = s₂.items.any Item.isRaw)
    (hseq : Scope.sorted_item_sequence s₁.items = Scope.sorted_item_sequence s₂.items)
    (f : Fmt) : Scope.fmt s₁ f = Scope.fmt s₂ f := by
  unfold Scope.fmt Scope.fmt_imports
  rw [raw_fold, raw_fold, hraw, hany, himp, hseq]

/-- Asymmetry of the byte-lexicographic comparison. -/
lemma charListLt_asymm : ∀ x y : List Char,
    charListLt x y = true → charListLt y x = false := by
  intro x
  induction x with
  | nil =>
    intro y h
    cases y with
    | nil => simp [charListLt] at h
    | cons b ys => simp [charListLt]
  | cons a xs ih =>
    intro y h
    cases y with
    | nil => simp [charListLt] at h
    | cons b ys =>
      unfold charListLt at h ⊢
      rcases Nat.lt_trichotomy a.toNat b.toNat with hlt | heq | hgt
      · have h2 : ¬ b.toNat < a.toNat := by omega
        simp [hlt, h2]
      · have h1 : ¬ a.toNat < b.toNat := by omega
        have h2 : ¬ b.toNat < a.toNat := by omega
        simp only [h1, if_false, h2, ite_false] at h ⊢
        exact ih ys h
      · have h1 : ¬ a.toNat < b.toNat := by omega
        simp [h1, hgt] at h

/-- Totality of the byte-lexicographic comparison on distinct lists. -/
lemma charListLt_total : ∀ x y : List Char, ¬ x = y →
    charListLt x y = true ∨ charListLt y x = true := by
  intro x
  induction x with
  | nil =>
    intro y h
    cases y with
    | nil => exact absurd rfl h
    | cons b ys => left; simp [charListLt]
  | cons a xs ih =>
    intro y h
    cases y with
    | nil => right; simp [charListLt]
    | cons b ys =>
      unfold charListLt
      rcases Nat.lt_trichotomy a.toNat b.toNat with hlt | heq | hgt
      · simp [hlt]
      · have hab : a = b := Char.ext (UInt32.toNat.inj heq)
        have h1 : ¬ a.toNat < b.toNat := by omega
        have h2 : ¬ b.toNat < a.toNat := by omega
        have hxy : ¬ xs = ys := by
          intro hc
          exact h (by rw [hab, hc])
        subst hab
        simp only [h1, if_false, ite_false]
        exact ih ys hxy
      · have h1 : ¬ a.toNat < b.toNat := by omega
        simp [h1, hgt]

/-- Asymmetry of the key comparison. -/
lemma keyLt_asymm (a b : String) (h : keyLt a b = true) : keyLt b a = false :=
  charListLt_asymm a.data b.data h

/-- Totality of the key comparison on distinct keys. -/
lemma keyLt_total (a b : String) (h : ¬ a = b) :
    keyLt a b = true ∨ keyLt b a = true :=
  charListLt_total a.data b.data (fun hc => h (String.ext hc))

/-- A raw item carries no sort key. -/
lemma raw_itemKey_none (it : Item) (h : Item.isRaw it = true) : itemKey it = none := by
  cases it <;> simp_all [Item.isRaw, itemKey]

/-- An item with a sort key is not raw. -/
lemma key_some_isRaw_false (a : Item) (k : String) (h : itemKey a = some k) :
    Item.isRaw a = false := by
  cases a <;> simp_all [Item.isRaw, itemKey]

/-- An item with a sort key contributes nothing to the raw pass. -/
lemma key_some_rawChunk_nil (a : Item) (k : String) (h : itemKey a = some k) :
    rawChunk a = [] := by
  cases a <;> simp_all [itemKey, rawChunk]

/-- Raw items contribute no keys. -/
lemma all_raw_filterMap (l : List Item) (h : l.all Item.isRaw = true) :
    l.filterMap itemKey = [] := by
  induction l with
  | nil => rfl
  | cons it rest ih =>
    rw [List.all_cons, Bool.and_eq_true] at h
    rw [List.filterMap_cons, raw_itemKey_none it h.1]
    exact ih h.2

/-- Raw items belong to no key bucket. -/
lemma all_raw_filter_key (l : List Item) (k : String) (h : l.all Item.isRaw = true) :
    l.filter (fun it => decide (itemKey it = some k)) = [] := by
  induction l with
  | nil => rfl
  | cons it rest ih =>
    rw [List.all_cons, Bool.and_eq_true] at h
    rw [List.filter_cons]
    rw [raw_itemKey_none it h.1]
    simp only [decide_eq_true_eq]
    rw [if_neg (by simp)]
    exact ih h.2

/-- Inserting two distinct keys into the ordered key set commutes. -/
lemma insert_key_comm (ka kb : String) (hne : ¬ ka = kb) :
    insert_key kb (insert_key ka []) = insert_key ka (insert_key kb []) := by
  show insert_key kb [ka] = insert_key ka [kb]
  rcases keyLt_total ka kb hne with hlt | hlt
  · have h1 : keyLt kb ka = false := keyLt_asymm ka kb hlt
    simp [insert_key, h1, hlt, Ne.symm hne, hne]
  · have h1 : keyLt ka kb = false := keyLt_asymm kb ka hlt
    simp [insert_key, h1, hlt, hne, Ne.symm hne]

/-- Swapping two keyed declarations (with distinct keys) inside otherwise
raw surroundings leaves the sorted rendering sequence unchanged. -/
lemma sorted_seq_swap (a b : Item) (pre mid post : List Item)
    (hraw : (pre ++ mid ++ post).all Item.isRaw = true)
    (ka kb : String) (ha : itemKey a = some ka) (hb : itemKey b = some kb)
    (hne : ¬ ka = kb) :
    Scope.sorted_item_sequence (pre ++ a :: (mid ++ b :: post))
      = Scope.sorted_item_sequence (pre ++ b :: (mid ++ a :: post)) := by
  simp only [List.all_append, Bool.and_eq_true] at hraw
  obtain ⟨⟨hpre, hmid⟩, hpost⟩ := hraw
  unfold Scope.sorted_item_sequence Scope.sorted_keys
  have hkeys1 : (pre ++ a :: (mid ++ b :: post)).filterMap itemKey = [ka, kb] := by
    simp [List.filterMap_append, List.filterMap_cons, ha, hb,
      all_raw_filterMap pre hpre, all_raw_filterMap mid hmid,
      all_raw_filterMap post hpost]
  have hkeys2 : (pre ++ b :: (mid ++ a :: post)).filterMap itemKey = [kb, ka] := by
    simp [List.filterMap_append, List.filterMap_cons, ha, hb,
      all_raw_filterMap pre hpre, all_raw_filterMap mid hmid,
      all_raw_filterMap post hpost]
  rw [hkeys1, hkeys2]
  have hkeq : List.foldl (fun acc k => insert_key k acc) [] [kb, ka]
      = List.foldl (fun acc k => insert_key k acc) [] [ka, kb] := by
    simp only [List.foldl_cons, List.foldl_nil]
    exact (insert_key_comm ka kb hne).symm
  rw [hkeq]
  congr 1
  funext k
  simp only [List.filter_append, List.filter_cons,
    all_raw_filter_key pre k hpre, all_raw_filter_key mid k hmid,
    all_raw_filter_key post k hpost, ha, hb]
  by_cases hka : ka = k
  · have hkb : ¬ kb = k := fun hc => hne (by rw [hka, hc])
    simp [hka, hkb]
  · by_cases hkb : kb = k
    · simp [hka, hkb]
    · simp [hka, hkb]

/-- Claim C1: rendering is insertion-order independent for declarations
with distinct composite sort keys — a scope holding two keyed declarations
(with the same imports and the same raw items around them) renders to
identical text via `Scope::to_string` whether the first is inserted before
the second or after it; the rendered sequence is a function of the set of
declarations, not of insertion order. -/
theorem scope_to_string_insertion_order_independent
    (docs : Option Docs) (imports : List (String × List (String × Import)))
    (a b : Item) (pre mid post : List Item)
    (hraw : (pre ++ mid ++ post).all Item.isRaw = true)
    (ka kb : String) (ha : itemKey a = some ka) (hb : itemKey b = some kb)
    (hne : ¬ ka = kb) :
    Scope.to_string ⟨docs, imports, pre ++ a :: (mid ++ b :: post)⟩
      = Scope.to_string ⟨docs, imports, pre ++ b :: (mid ++ a :: post)⟩ := by
  have hfmt : Scope.fmt ⟨docs, imports, pre ++ a :: (mid ++ b :: post)⟩ Fmt.init
      = Scope.fmt ⟨docs, imports, pre ++ b :: (mid ++ a :: post)⟩ Fmt.init := by
    apply scope_fmt_eq
    · rfl
    · show rawText (pre ++ a :: (mid ++ b :: post))
        = rawText (pre ++ b :: (mid ++ a :: post))
      simp [rawText, List.flatMap_append, List.flatMap_cons,
        key_some_rawChunk_nil a ka ha, key_some_rawChunk_nil b kb hb]
    · show (pre ++ a :: (mid ++ b :: post)).any Item.isRaw
        = (pre ++ b :: (mid ++ a :: post)).any Item.isRaw
      simp [List.any_append, List.any_cons,
        key_some_isRaw_false a ka ha, key_some_isRaw_false b kb hb]
    · exact sorted_seq_swap a b pre mid post hraw ka kb ha hb hne
  unfold Scope.to_string
  rw [hfmt]

/-- Witness for C1: a raw line followed by `struct Foo` and `enum Bar` (in
either insertion order) renders identically. -/
theorem scope_to_string_insertion_order_independent_witness :
    Scope.to_string ⟨none, [], [Item.raw "x", Item.struct structFoo, Item.enum enumBar]⟩
      = Scope.to_string ⟨none, [], [Item.raw "x", Item.enum enumBar, Item.struct structFoo]⟩ :=
  scope_to_string_insertion_order_independent none []
    (Item.struct structFoo) (Item.enum enumBar)
    [Item.raw "x"] [] [] (by decide) "Foo-astruct" "Bar-enum" (by decide) (by decide)
    (by decide)

end Codegen
